import Mathlib

/-!
Verification of the age-edit secure edit session manager (`main.go`)
against its natural-language specification.

The Go source is shallowly embedded: file contents and byte streams are
lists of characters, external effects (filesystem probes, the age
encryption primitive, the editor subprocess, the advisory lock) are
supplied as explicit oracle values or function parameters, and the
control flow of each Go function is translated branch by branch.
-/

namespace AgeEdit

/-- Byte streams and file contents, as lists of characters. -/
abbrev Bytes := List Char

/-! ## `getRoot` and path helpers (main.go: getRoot, filepath.Base) -/

/-- The ".age" suffix stripped by `getRoot`. -/
def ageSuffix : Bytes := ['.', 'a', 'g', 'e']

/-- Go `strings.HasSuffix`. -/
def hasSuffix (s suffix : Bytes) : Bool := suffix.isSuffixOf s

/-- Go `strings.TrimSuffix`: removes one trailing occurrence of `suffix` if present. -/
def trimSuffix (s suffix : Bytes) : Bytes :=
  if hasSuffix s suffix then s.take (s.length - suffix.length) else s

/-- main.go `getRoot`: removes the ".age" suffix from a path if present. -/
def getRoot (path : Bytes) : Bytes := trimSuffix path ageSuffix

/-- Go `filepath.Base` on a Unix path: empty path gives ".", a path of only
slashes gives "/", otherwise the last element after stripping trailing slashes. -/
def baseName (p : Bytes) : Bytes :=
  if p = [] then ['.']
  else
    let q := (p.reverse.dropWhile (fun c => c = '/')).reverse
    if q = [] then ['/']
    else (q.reverse.takeWhile (fun c => decide (c ≠ '/'))).reverse

/-- main.go `edit` lines 328-329: the plaintext temp file path is the temp
directory joined with the base name of the encrypted path's root name. -/
def tempFilePath (tempDir encPath : Bytes) : Bytes :=
  tempDir ++ '/' :: baseName (getRoot encPath)

/-! ## CryptoPipeline (main.go: wrapDecrypt, runFilter, decryptToFile, encryptToFile) -/

/-- The age armor header `armor.Header` = "-----BEGIN AGE ENCRYPTED FILE-----". -/
def armorHeader : Bytes := "-----BEGIN AGE ENCRYPTED FILE-----".data

/-- Characters trimmed by Go `strings.TrimSpace` (ASCII whitespace model). -/
def isSpaceChar (c : Char) : Bool := c = ' ' ∨ c = '\t' ∨ c = '\n' ∨ c = '\r'

/-- Go `strings.TrimSpace`. -/
def trimChars (l : Bytes) : Bytes :=
  ((l.dropWhile isSpaceChar).reverse.dropWhile isSpaceChar).reverse

/-- main.go `runFilter`: if the command is empty (after trimming), the input is
copied through unchanged; otherwise the external command's stdin-to-stdout
transform `f` is applied. -/
def runFilter (cmd : Bytes) (f : Bytes → Bytes) (input : Bytes) : Bytes :=
  if trimChars cmd = [] then input else f input

/-- The opaque age encryption capability, fixed to one identity/recipient set:
binary encryption, the armor transform applied to a ciphertext, and the two
decryption paths `age.Decrypt(r)` and `age.Decrypt(armor.NewReader(r))`. -/
structure agePrim where
  encBinary : Bytes → Bytes
  armorEnc : Bytes → Bytes
  decBinary : Bytes → Except String Bytes
  decArmored : Bytes → Except String Bytes

/-- Errors surfaced by `wrapDecrypt`. -/
inductive decryptError
  | headerRead
  | primFailed (msg : String)
deriving DecidableEq

/-- Lift a primitive decryption result into `wrapDecrypt`'s error type. -/
def liftPrim : Except String Bytes → Except decryptError Bytes
  | .ok p => .ok p
  | .error e => .error (.primFailed e)

/-- main.go `wrapDecrypt`: `io.ReadFull` peeks `len(armor.Header)` bytes.
`ReadFull` yields `io.EOF` only when zero bytes were read, so the wrapped
header-read failure is returned exactly when the stream is nonempty and
shorter than the header.  Otherwise the peeked bytes are prepended back
(`io.MultiReader`), the armored path is taken iff the peek equals the header,
and the chosen primitive sees the complete original stream. -/
def wrapDecrypt (P : agePrim) (s : Bytes) : Except decryptError Bytes :=
  if 0 < s.length ∧ s.length < armorHeader.length then
    .error .headerRead
  else if s.take armorHeader.length = armorHeader then
    liftPrim (P.decArmored s)
  else
    liftPrim (P.decBinary s)

/-- main.go `decryptToFile` at the byte level: `wrapDecrypt`, then the decode
filter is applied to the decrypted bytes. -/
def decryptBytes (P : agePrim) (decodeCmd : Bytes) (decodeFn : Bytes → Bytes)
    (c : Bytes) : Except decryptError Bytes :=
  (wrapDecrypt P c).map (runFilter decodeCmd decodeFn)

/-- main.go `encryptToFile` at the byte level: the encode filter is applied to
the plaintext, the result is encrypted, and the ciphertext is armored iff the
armor flag is set. -/
def encryptBytes (P : agePrim) (armored : Bool) (encodeCmd : Bytes)
    (encodeFn : Bytes → Bytes) (p : Bytes) : Bytes :=
  let filtered := runFilter encodeCmd encodeFn p
  if armored then P.armorEnc (P.encBinary filtered) else P.encBinary filtered

/-- A toy instantiation of the age primitive used to witness the roundtrip
theorems: binary ciphertexts carry a 34-byte magic marker distinct from the
armor header, and the armor transform prepends the armor header. -/
def binMagic : Bytes := List.replicate armorHeader.length 'b'

/-- Toy age primitive satisfying the roundtrip laws. -/
def toyPrim : agePrim where
  encBinary p := binMagic ++ p
  armorEnc c := armorHeader ++ c
  decBinary c :=
    if c.take binMagic.length = binMagic then .ok (c.drop binMagic.length)
    else .error "bad ciphertext"
  decArmored c :=
    if c.take armorHeader.length = armorHeader then
      (if (c.drop armorHeader.length).take binMagic.length = binMagic then
        .ok ((c.drop armorHeader.length).drop binMagic.length)
      else .error "bad ciphertext")
    else .error "no armor header"

/-- A primitive whose binary decryption always succeeds, used to exhibit that
`wrapDecrypt` on the empty stream reaches the decryption primitive. -/
def constOkPrim : agePrim where
  encBinary p := p
  armorEnc c := c
  decBinary _ := .ok ['x']
  decArmored _ := .ok ['x']

/-! ## IdentityStore (main.go: loadIdentities, lines 259-292) -/

/-- Errors from `loadIdentities`. -/
inductive identityError
  | readFailed
  | parseFailed (lineNumber : Nat)
  | noIdentities
deriving DecidableEq

/-- Go `strings.Split(s, "\n")`: the pieces of `s` between newline bytes
(one more piece than newlines; the empty string yields one empty piece). -/
def splitLines : Bytes → List Bytes
  | [] => [[]]
  | c :: rest =>
    if c = '\n' then [] :: splitLines rest
    else
      match splitLines rest with
      | [] => [[c]]
      | l :: ls => (c :: l) :: ls

/-- Go `strings.HasPrefix(line, "#")`. -/
def startsWithHash : Bytes → Bool
  | [] => false
  | c :: _ => c = '#'

/-- A trimmed line survives filtering iff it is neither blank nor a comment. -/
def keepLine (l : Bytes) : Bool := !(l.isEmpty || startsWithHash l)

/-- The non-blank, non-comment trimmed lines of the identities file, in order. -/
def filteredLines (content : Bytes) : List Bytes :=
  ((splitLines content).map trimChars).filter keepLine

/-- The loop of main.go `loadIdentities`: iterates over the raw lines,
trims each, skips blanks and `#`-comments, counts every surviving line,
parses it (failing with the 1-based count on a parse error), and accumulates
identities together with their derived recipients in declared order. -/
def loadIdsLoop {α β : Type} (parse : Bytes → Option α) (toRecipient : α → β)
    (count : Nat) : List Bytes → Except identityError (List α × List β)
  | [] => .ok ([], [])
  | line :: rest =>
    let l := trimChars line
    if l.isEmpty || startsWithHash l then loadIdsLoop parse toRecipient count rest
    else
      match parse l with
      | none => .error (.parseFailed (count + 1))
      | some idv =>
        match loadIdsLoop parse toRecipient (count + 1) rest with
        | .error e => .error e
        | .ok (ids, recs) => .ok (idv :: ids, toRecipient idv :: recs)

/-- main.go `loadIdentities`: splits the file content into lines, runs the
parsing loop, and fails with `noIdentities` when zero identities remain. -/
def loadIdentities {α β : Type} (parse : Bytes → Option α) (toRecipient : α → β)
    (content : Bytes) : Except identityError (List α × List β) :=
  match loadIdsLoop parse toRecipient 0 (splitLines content) with
  | .error e => .error e
  | .ok (ids, recs) => if ids.length = 0 then .error .noIdentities else .ok (ids, recs)

/-- The parsing loop restricted to an already-filtered list of lines. -/
def parseFiltered {α β : Type} (parse : Bytes → Option α) (toRecipient : α → β)
    (count : Nat) : List Bytes → Except identityError (List α × List β)
  | [] => .ok ([], [])
  | l :: rest =>
    match parse l with
    | none => .error (.parseFailed (count + 1))
    | some idv =>
      match parseFiltered parse toRecipient (count + 1) rest with
      | .error e => .error e
      | .ok (ids, recs) => .ok (idv :: ids, toRecipient idv :: recs)

/-! ## `checkAccess` (main.go lines 224-254) -/

/-- Filesystem facts about the encrypted file's path, as observed by
`os.Stat`, `os.Open` and `os.OpenFile(..., os.O_RDWR, ...)`. -/
structure fileAccess where
  statExists : Bool
  canRead : Bool
  canWrite : Bool

/-- main.go `checkAccess`: verifies that the file exists and is readable, and,
when not in read-only mode, writable.  Returns whether the file exists together
with an optional error message, mirroring the Go `(bool, error)` return. -/
def checkAccess (fa : fileAccess) (readOnly : Bool) : Bool × Option String :=
  if fa.statExists = false then
    if readOnly then (false, some "does not exist; won't attempt to create it in read-only mode")
    else (false, none)
  else if fa.canRead = false then (true, some "can't read from file")
  else if readOnly = false ∧ fa.canWrite = false then (true, some "can't write to file")
  else (true, none)

/-- Parser used to witness C8: rejects the line "bad", accepts anything else. -/
def wParse (l : Bytes) : Option Bytes := if l = "bad".data then none else some l

/-- Whether an `Except` is a success. -/
def exceptOk {ε α : Type} : Except ε α → Bool
  | .ok _ => true
  | .error _ => false

/-! ## EditSession (main.go: config, saveError, saveChanges, edit, cli) -/

/-- main.go `config`: the immutable session configuration (lines 62-78).
Its fields are exactly those of the Go struct. -/
structure config where
  idsPath : Bytes
  encPath : Bytes
  tempDirPrefix : Bytes
  armor : Bool
  lock : Bool
  readOnly : Bool
  command : Bytes
  args : List Bytes
  decodeCmd : Bytes
  decodeArgs : List Bytes
  encodeCmd : Bytes
  encodeArgs : List Bytes

/-- main.go `saveError` (lines 80-87): an error carrying the temp file path. -/
structure saveError where
  err : String
  tempFile : Bytes
deriving DecidableEq

/-- The errors `edit` can return, one per exit path. -/
inductive editError
  | accessE (msg : String)
  | identitiesE (e : identityError)
  | sysE
  | mkdirE
  | lockSysE (msg : String)
  | lockedE
  | decryptE (msg : String)
  | chmodE
  | editorE
  | saveE (e : saveError)
deriving DecidableEq

/-- Observable side effects of a session and of the CLI tail, in order. -/
inductive action
  | tryLockA
  | chmodReadOnlyA
  | armSaveA
  | runEditorA
  | encryptA
  | disarmSaveA
  | unlockA
  | printErrorA
  | promptRecoveryA
  | waitEnterA
  | removeAllA
  | removeDirA
deriving DecidableEq

/-- The save bookkeeping shared by checkpoint saves and the final save:
the last saved digest and the encrypted file's current content. -/
structure saveState where
  beforeSum : Bytes
  encContent : Bytes
deriving DecidableEq

/-- main.go `checksumFile`: the digest of the temp file, where a missing file
hashes like an empty one. -/
def checksumFile (hash : Bytes → Bytes) (temp : Option Bytes) : Bytes :=
  hash (temp.getD [])

/-- main.go `saveChanges` closure (lines 368-386): recompute the digest; if it
equals the last saved digest do nothing, otherwise run `encryptToFile`
(modelled by `encPipe`, whose failure carries the partially written
destination) and update the last saved digest on success.  Returns the new
state, whether encryption was attempted, and the error if any. -/
def saveChanges (hash : Bytes → Bytes)
    (encPipe : Option Bytes → Except (String × Bytes) Bytes)
    (temp : Option Bytes) (st : saveState) : saveState × Bool × Option String :=
  let currentSum := checksumFile hash temp
  if st.beforeSum = currentSum then (st, false, none)
  else
    match encPipe temp with
    | .error (msg, pw) => ({ st with encContent := pw }, true, some msg)
    | .ok c => ({ beforeSum := currentSum, encContent := c }, true, none)

/-- The environment of one session: every fact the Go `edit` obtains from the
operating system, the filesystem, the lock, the crypto pipeline, the signal
bridge and the editor subprocess. -/
structure env where
  access : fileAccess
  idsResult : Except identityError (List Bytes × List Bytes)
  sysOk : Bool
  mkdirOk : Bool
  tempDir : Bytes
  tryLockRes : Except String Bool
  decryptRes : Except String Bytes
  chmodOk : Bool
  checkpointTemps : List (Option Bytes)
  editorOk : Bool
  editorFinalTemp : Option Bytes
  hash : Bytes → Bytes
  encPipe : Option Bytes → Except (String × Bytes) Bytes
  encInit : Bytes

/-- The observable outcome of `edit`: the returned temp directory, the result,
the final content of the encrypted file, and the ordered action trace. -/
structure editResult where
  tempDir : Bytes
  res : Except editError Unit
  encFinal : Bytes
  trace : List action

/-- Checkpoint saves triggered by SIGUSR1 while the editor runs: each runs
`saveChanges` under the mutex; failures are reported, never fatal. -/
def runCheckpoints (hash : Bytes → Bytes)
    (encPipe : Option Bytes → Except (String × Bytes) Bytes) :
    List (Option Bytes) → saveState → saveState × List action
  | [], st => (st, [])
  | t :: ts, st =>
    let r := saveChanges hash encPipe t st
    let rest := runCheckpoints hash encPipe ts r.1
    (rest.1, (if r.2.1 then [action.encryptA] else []) ++ rest.2)

/-- The deferred `encLock.Unlock` runs on every exit after acquisition. -/
def unlockTrace (locked : Bool) : List action :=
  if locked then [action.unlockA] else []

/-- main.go `edit` lines 355-411: everything after decryption.  Computes the
post-decryption digest; in read-only mode restricts the temp file and runs the
editor without ever arming a save; otherwise arms the checkpoint-save handler,
runs the editor (checkpoints may fire meanwhile), and runs the final save,
whose failure is wrapped as a `saveError` carrying the temp file path. -/
def editAfterDecrypt (cfg : config) (e : env) (temp : Option Bytes)
    (tempFile : Bytes) (tr : List action) (locked : Bool) : editResult :=
  let st0 : saveState := ⟨checksumFile e.hash temp, e.encInit⟩
  if cfg.readOnly then
    if e.chmodOk = false then
      ⟨e.tempDir, .error .chmodE, st0.encContent,
        tr ++ [action.chmodReadOnlyA] ++ unlockTrace locked⟩
    else if e.editorOk = false then
      ⟨e.tempDir, .error .editorE, st0.encContent,
        tr ++ [action.chmodReadOnlyA, action.runEditorA] ++ unlockTrace locked⟩
    else
      ⟨e.tempDir, .ok (), st0.encContent,
        tr ++ [action.chmodReadOnlyA, action.runEditorA] ++ unlockTrace locked⟩
  else
    let cp := runCheckpoints e.hash e.encPipe e.checkpointTemps st0
    let tr2 := tr ++ [action.armSaveA, action.runEditorA] ++ cp.2
    if e.editorOk = false then
      ⟨e.tempDir, .error .editorE, cp.1.encContent,
        tr2 ++ [action.disarmSaveA] ++ unlockTrace locked⟩
    else
      let fs := saveChanges e.hash e.encPipe e.editorFinalTemp cp.1
      let tr3 := tr2 ++ (if fs.2.1 then [action.encryptA] else [])
      match fs.2.2 with
      | some msg =>
        ⟨e.tempDir, .error (.saveE ⟨msg, tempFile⟩), fs.1.encContent,
          tr3 ++ [action.disarmSaveA] ++ unlockTrace locked⟩
      | none =>
        ⟨e.tempDir, .ok (), fs.1.encContent,
          tr3 ++ [action.disarmSaveA] ++ unlockTrace locked⟩

/-- main.go `edit` lines 350-353: decrypt the encrypted file into the temp
file when it exists; a decryption failure is fatal (lock still released). -/
def editAfterLock (cfg : config) (e : env) (exFlag : Bool) (tempFile : Bytes)
    (tr : List action) (locked : Bool) : editResult :=
  if exFlag then
    match e.decryptRes with
    | .error msg =>
      ⟨e.tempDir, .error (.decryptE msg), e.encInit, tr ++ unlockTrace locked⟩
    | .ok content => editAfterDecrypt cfg e (some content) tempFile tr locked
  else editAfterDecrypt cfg e none tempFile tr locked

/-- main.go `edit` (lines 298-412): access check, identity loading, system
facts, workspace creation, then — only if the encrypted file exists, locking
is enabled and the session is not read-only — a single non-blocking `TryLock`
whose held-by-another outcome fails immediately with the locked error. -/
def edit (cfg : config) (e : env) : editResult :=
  match checkAccess e.access cfg.readOnly with
  | (_, some msg) => ⟨[], .error (.accessE msg), e.encInit, []⟩
  | (exFlag, none) =>
    match e.idsResult with
    | .error ie => ⟨[], .error (.identitiesE ie), e.encInit, []⟩
    | .ok _ =>
      if e.sysOk = false then ⟨[], .error .sysE, e.encInit, []⟩
      else if e.mkdirOk = false then ⟨e.tempDir, .error .mkdirE, e.encInit, []⟩
      else
        let tempFile := tempFilePath e.tempDir cfg.encPath
        if exFlag && cfg.lock && !cfg.readOnly then
          match e.tryLockRes with
          | .error msg =>
            ⟨e.tempDir, .error (.lockSysE msg), e.encInit, [action.tryLockA]⟩
          | .ok false =>
            ⟨e.tempDir, .error .lockedE, e.encInit, [action.tryLockA]⟩
          | .ok true => editAfterLock cfg e exFlag tempFile [action.tryLockA] true
        else editAfterLock cfg e exFlag tempFile [] false

/-- main.go `cli` lines 752-783 after `edit` returns: on error print it; on a
`saveError` additionally print the recovery prompt naming the temp file and
wait for Enter; the deferred `os.RemoveAll(tempDir)` and
`os.Remove(filepath.Dir(tempDir))` (registered only when `tempDir` is
nonempty, LIFO) run only after the body, hence after the prompt. -/
def cliTail (tempDir : Bytes) (res : Except editError Unit) : List action :=
  (match res with
   | .ok _ => []
   | .error er =>
     action.printErrorA ::
       (match er with
        | .saveE _ => [action.promptRecoveryA, action.waitEnterA]
        | _ => []))
  ++ (if tempDir = [] then [] else [action.removeAllA, action.removeDirA])

/-- A concrete session configuration used by witnesses: locking enabled,
not read-only. -/
def wLockCfg : config :=
  ⟨"ids.txt".data, "secret.txt.age".data, "/dev/shm/".data,
   false, true, false, "vi".data, [], [], [], [], []⟩

/-- A concrete environment used by witnesses: the encrypted file exists and is
accessible, every setup step succeeds, and the single lock try finds the lock
held by another session. -/
def wLockEnv : env :=
  ⟨⟨true, true, true⟩, .ok ([], []), true, true, "/dev/shm/u/x".data,
   .ok false, .ok [], true, [], true, none,
   fun b => b, fun t => .ok (t.getD []), []⟩

/-- The actions a session itself may emit (workspace removal is not one). -/
def sessionVocab : List action :=
  [action.tryLockA, action.chmodReadOnlyA, action.armSaveA, action.runEditorA,
   action.encryptA, action.disarmSaveA, action.unlockA]

/-- A concrete environment whose editor leaves the temp file digest unchanged,
used to witness that no configuration triggers re-encryption then. -/
def wNCEnv : env :=
  ⟨⟨true, true, true⟩, .ok ([], []), true, true, "/dev/shm/u/x".data,
   .ok true, .ok ("same".data), true, [], true, some ("same".data),
   fun b => b, fun t => .ok (t.getD []), "ciphertext".data⟩

/-- The temp file content right after the decrypt phase of `edit`: the
decrypted bytes when the encrypted file existed, absent otherwise. -/
def initialTemp (e : env) (exFlag : Bool) : Option Bytes :=
  if exFlag then
    match e.decryptRes with
    | .ok d => some d
    | .error _ => none
  else none

/-- A concrete environment whose final save fails: an existing locked file is
decrypted, a checkpoint fires during the edit, and `encryptToFile` reports a
disk error, used to witness the saveError path. -/
def wSaveFailEnv : env :=
  ⟨⟨true, true, true⟩, .ok ([], []), true, true, "/dev/shm/u/x".data,
   .ok true, .ok ("orig".data), true, [some ("mid".data)], true,
   some ("new".data), fun b => b, fun _ => .error ("disk full", []),
   "cipher".data⟩

/-- A concrete read-only session configuration for witnesses. -/
def wROCfg : config :=
  ⟨"ids.txt".data, "secret.txt.age".data, "/dev/shm/".data,
   false, true, true, "vi".data, [], [], [], [], []⟩

/-- A concrete environment for the read-only witness: the editor rewrites the
temp file, yet the session must not touch the encrypted content. -/
def wROEnv : env :=
  ⟨⟨true, true, true⟩, .ok ([], []), true, true, "/dev/shm/u/x".data,
   .ok true, .ok ("old".data), true, [some ("mid".data)], true,
   some ("changed".data), fun b => b, fun t => .ok (t.getD []), "ciphertext".data⟩

end AgeEdit

namespace AgeEdit

/-- A prefix of the stream equal to the armor header forces the stream to be at
least as long as the header. -/
theorem length_le_of_take_eq_armorHeader {s : Bytes}
    (h : s.take armorHeader.length = armorHeader) :
    armorHeader.length ≤ s.length := by
  have hlen := congrArg List.length h
  simp only [List.length_take] at hlen
  omega

/-- The loop only sees the filtered (trimmed, non-blank, non-comment) lines. -/
theorem loadIdsLoop_eq_parseFiltered {α β : Type} (parse : Bytes → Option α)
    (toRecipient : α → β) (lines : List Bytes) (count : Nat) :
    loadIdsLoop parse toRecipient count lines
      = parseFiltered parse toRecipient count ((lines.map trimChars).filter keepLine) := by
  induction lines generalizing count with
  | nil => rfl
  | cons line rest ih =>
    by_cases hk : (trimChars line).isEmpty || startsWithHash (trimChars line)
    · have hfilter : keepLine (trimChars line) = false := by
        simp [keepLine, hk]
      rw [loadIdsLoop, if_pos hk, ih count]
      simp [hfilter]
    · have hfilter : keepLine (trimChars line) = true := by
        simp [keepLine] at hk ⊢
        exact hk
      rw [loadIdsLoop, if_neg hk]
      simp only [List.map_cons, List.filter_cons, hfilter, if_true]
      rw [parseFiltered]
      cases parse (trimChars line) with
      | none => rfl
      | some idv => rw [ih (count + 1)]

/-- When every filtered line parses, `parseFiltered` returns the identities of
all lines in order, with recipients derived pairwise. -/
theorem parseFiltered_all_ok {α β : Type} (parse : Bytes → Option α)
    (toRecipient : α → β) (ls : List Bytes) (count : Nat)
    (h : ∀ l ∈ ls, (parse l).isSome = true) :
    parseFiltered parse toRecipient count ls
      = .ok (ls.filterMap parse, (ls.filterMap parse).map toRecipient) := by
  induction ls generalizing count with
  | nil => rfl
  | cons l rest ih =>
    obtain ⟨v, hv⟩ := Option.isSome_iff_exists.mp (h l (by simp))
    rw [parseFiltered, hv, ih (count + 1) (fun x hx => h x (by simp [hx]))]
    simp [List.filterMap_cons, hv]

/-- When the first failing line is at 0-based position `pre.length`,
`parseFiltered` fails with 1-based number `count + pre.length + 1`. -/
theorem parseFiltered_first_failure {α β : Type} (parse : Bytes → Option α)
    (toRecipient : α → β) (pre : List Bytes) (bad : Bytes) (rest : List Bytes)
    (count : Nat) (hpre : ∀ l ∈ pre, (parse l).isSome = true)
    (hbad : parse bad = none) :
    parseFiltered parse toRecipient count (pre ++ bad :: rest)
      = .error (.parseFailed (count + pre.length + 1)) := by
  induction pre generalizing count with
  | nil => simp [parseFiltered, hbad]
  | cons l pre' ih =>
    obtain ⟨v, hv⟩ := Option.isSome_iff_exists.mp (hpre l (by simp))
    rw [List.cons_append, parseFiltered, hv,
      ih (count + 1) (fun x hx => hpre x (by simp [hx]))]
    have : count + 1 + pre'.length + 1 = count + (l :: pre').length + 1 := by
      simp; omega
    rw [this]

/-- A successful `parseFiltered` yields exactly one identity per line. -/
theorem parseFiltered_ok_length {α β : Type} (parse : Bytes → Option α)
    (toRecipient : α → β) (ls : List Bytes) (count : Nat) (ids : List α)
    (recs : List β)
    (h : parseFiltered parse toRecipient count ls = .ok (ids, recs)) :
    ids.length = ls.length := by
  induction ls generalizing count ids recs with
  | nil =>
    rw [parseFiltered] at h
    cases h
    rfl
  | cons l rest ih =>
    rw [parseFiltered] at h
    cases hp : parse l with
    | none => rw [hp] at h; cases h
    | some v =>
      rw [hp] at h
      cases hrec : parseFiltered parse toRecipient (count + 1) rest with
      | error e => rw [hrec] at h; cases h
      | ok p =>
        rw [hrec] at h
        cases h
        simp [ih (count + 1) p.1 p.2 hrec]

/-- A failing `parseFiltered` always fails with a `parseFailed` error. -/
theorem parseFiltered_error_shape {α β : Type} (parse : Bytes → Option α)
    (toRecipient : α → β) (ls : List Bytes) (count : Nat) (e : identityError)
    (h : parseFiltered parse toRecipient count ls = .error e) :
    ∃ k, e = .parseFailed k := by
  induction ls generalizing count e with
  | nil => rw [parseFiltered] at h; cases h
  | cons l rest ih =>
    rw [parseFiltered] at h
    cases hp : parse l with
    | none =>
      rw [hp] at h
      cases h
      exact ⟨count + 1, rfl⟩
    | some v =>
      rw [hp] at h
      cases hrec : parseFiltered parse toRecipient (count + 1) rest with
      | error e2 =>
        rw [hrec] at h
        cases h
        exact ih (count + 1) _ hrec
      | ok p => rw [hrec] at h; cases h

/-! ## Theorems for getRoot (claim C10) and checkAccess (claim C9) -/

/-- C10: `getRoot` removes at most one trailing ".age" suffix: a path ending in
".age" loses exactly that suffix, any other path is returned unchanged, a path
ending in ".age.age" keeps its first ".age", and when the encrypted path does
not end in ".age" the temp file's base name equals the encrypted file's. -/
theorem getRoot_strips_at_most_one_age_suffix :
    (∀ p : Bytes, hasSuffix p ageSuffix = true → getRoot p ++ ageSuffix = p) ∧
    (∀ p : Bytes, hasSuffix p ageSuffix = false → getRoot p = p) ∧
    (∀ s : Bytes, getRoot (s ++ ageSuffix ++ ageSuffix) = s ++ ageSuffix) ∧
    (∀ tempDir encPath : Bytes, hasSuffix encPath ageSuffix = false →
      tempFilePath tempDir encPath = tempDir ++ '/' :: baseName encPath) := by
  refine ⟨?_, ?_, ?_, ?_⟩
  · intro p h
    obtain ⟨t, ht⟩ := (List.isSuffixOf_iff_suffix.mp h)
    subst ht
    simp only [getRoot, trimSuffix, h, if_true]
    have hlen : (t ++ ageSuffix).length - ageSuffix.length = t.length := by simp
    rw [hlen, List.take_left]
  · intro p h
    simp [getRoot, trimSuffix, h]
  · intro s
    have hsuf : hasSuffix (s ++ ageSuffix ++ ageSuffix) ageSuffix = true :=
      List.isSuffixOf_iff_suffix.mpr ⟨s ++ ageSuffix, by simp⟩
    simp only [getRoot, trimSuffix, hsuf, if_true]
    have hlen : (s ++ ageSuffix ++ ageSuffix).length - ageSuffix.length
        = (s ++ ageSuffix).length := by
      simp [ageSuffix]
    rw [hlen, List.take_left]
  · intro tempDir encPath h
    simp [tempFilePath, getRoot, trimSuffix, h]

/-- Witness for C10 at concrete paths. -/
theorem getRoot_strips_at_most_one_age_suffix_witness :
    getRoot ("secret.txt.age".data) = "secret.txt".data ∧
    getRoot ("example.odt".data) = "example.odt".data ∧
    getRoot ("a.age.age".data) = "a.age".data ∧
    tempFilePath ("/dev/shm/x".data) ("example.odt".data)
      = "/dev/shm/x".data ++ '/' :: baseName ("example.odt".data) := by
  refine ⟨?_, ?_, ?_, ?_⟩
  · have h := getRoot_strips_at_most_one_age_suffix.1 ("secret.txt.age".data) (by decide)
    have : getRoot ("secret.txt.age".data) ++ ageSuffix = "secret.txt".data ++ ageSuffix := by
      rw [h]; decide
    exact List.append_cancel_right this
  · exact getRoot_strips_at_most_one_age_suffix.2.1 ("example.odt".data) (by decide)
  · have h := getRoot_strips_at_most_one_age_suffix.2.2.1 ("a".data)
    simpa [ageSuffix] using h
  · exact getRoot_strips_at_most_one_age_suffix.2.2.2 ("/dev/shm/x".data)
      ("example.odt".data) (by decide)

/-- C9: `checkAccess` on a non-existent path succeeds (reporting the file as
absent) when not read-only and fails when read-only; on an existing unreadable
file it fails in both modes; on an existing readable but unwritable file it
fails when not read-only. -/
theorem checkAccess_cases :
    (∀ fa : fileAccess, fa.statExists = false →
      checkAccess fa false = (false, none)) ∧
    (∀ fa : fileAccess, fa.statExists = false →
      (checkAccess fa true).2.isSome = true) ∧
    (∀ fa : fileAccess, ∀ ro : Bool, fa.statExists = true → fa.canRead = false →
      (checkAccess fa ro).1 = true ∧ (checkAccess fa ro).2.isSome = true) ∧
    (∀ fa : fileAccess, fa.statExists = true → fa.canRead = true → fa.canWrite = false →
      (checkAccess fa false).1 = true ∧ (checkAccess fa false).2.isSome = true) := by
  refine ⟨?_, ?_, ?_, ?_⟩
  · intro fa h; simp [checkAccess, h]
  · intro fa h; simp [checkAccess, h]
  · intro fa ro he hr; simp [checkAccess, he, hr]
  · intro fa he hr hw; simp [checkAccess, he, hr, hw]

/-- Witness for C9 at concrete filesystem states. -/
theorem checkAccess_cases_witness :
    checkAccess ⟨false, false, false⟩ false = (false, none) ∧
    (checkAccess ⟨false, false, false⟩ true).2.isSome = true ∧
    ((checkAccess ⟨true, false, false⟩ true).1 = true ∧
      (checkAccess ⟨true, false, false⟩ true).2.isSome = true) ∧
    ((checkAccess ⟨true, true, false⟩ false).1 = true ∧
      (checkAccess ⟨true, true, false⟩ false).2.isSome = true) :=
  ⟨checkAccess_cases.1 ⟨false, false, false⟩ rfl,
   checkAccess_cases.2.1 ⟨false, false, false⟩ rfl,
   checkAccess_cases.2.2.1 ⟨true, false, false⟩ true rfl rfl,
   checkAccess_cases.2.2.2 ⟨true, true, false⟩ rfl rfl rfl⟩

/-! ## Theorems for the crypto pipeline (claims C2 and C5) -/

/-- C2: for any primitive satisfying the age roundtrip laws (binary and armored
decryption invert encryption, binary ciphertexts are at least header-length and
never begin with the armor header, armored ciphertexts begin with the armor
header) and any no-op encode/decode filter configuration, decrypting the output
of `encryptBytes` with `decryptBytes` recovers the plaintext for both armor
settings; moreover `wrapDecrypt`'s header peek is non-destructive: on any
stream at least as long as the header, the chosen decryption primitive is
applied to the complete original stream, and the armored path is taken exactly
when the stream begins with the armor header. -/
theorem encrypt_decrypt_roundtrip (P : agePrim)
    (hbin : ∀ p, P.decBinary (P.encBinary p) = Except.ok p)
    (harm : ∀ p, P.decArmored (P.armorEnc (P.encBinary p)) = Except.ok p)
    (hbinLen : ∀ p, armorHeader.length ≤ (P.encBinary p).length)
    (hbinHdr : ∀ p, (P.encBinary p).take armorHeader.length ≠ armorHeader)
    (harmHdr : ∀ c, (P.armorEnc c).take armorHeader.length = armorHeader)
    (encodeCmd decodeCmd : Bytes) (encodeFn decodeFn : Bytes → Bytes)
    (henc : ∀ x, runFilter encodeCmd encodeFn x = x)
    (hdec : ∀ x, runFilter decodeCmd decodeFn x = x) :
    (∀ (plain : Bytes) (armored : Bool),
      decryptBytes P decodeCmd decodeFn (encryptBytes P armored encodeCmd encodeFn plain)
        = Except.ok plain) ∧
    (∀ s : Bytes, armorHeader.length ≤ s.length →
      wrapDecrypt P s =
        if s.take armorHeader.length = armorHeader
        then liftPrim (P.decArmored s) else liftPrim (P.decBinary s)) := by
  have hwrap : ∀ s : Bytes, armorHeader.length ≤ s.length →
      wrapDecrypt P s =
        if s.take armorHeader.length = armorHeader
        then liftPrim (P.decArmored s) else liftPrim (P.decBinary s) := by
    intro s hs
    have hshort : ¬(0 < s.length ∧ s.length < armorHeader.length) := by
      rintro ⟨_, hlt⟩; omega
    simp [wrapDecrypt, hshort]
  refine ⟨?_, hwrap⟩
  intro plain armored
  cases armored with
  | false =>
    have hc : encryptBytes P false encodeCmd encodeFn plain = P.encBinary plain := by
      simp [encryptBytes, henc plain]
    rw [decryptBytes, hc, hwrap (P.encBinary plain) (hbinLen plain),
      if_neg (hbinHdr plain), hbin plain]
    simp [liftPrim, Except.map, hdec plain]
  | true =>
    have hc : encryptBytes P true encodeCmd encodeFn plain
        = P.armorEnc (P.encBinary plain) := by
      simp [encryptBytes, henc plain]
    have hhdr := harmHdr (P.encBinary plain)
    have hlen := length_le_of_take_eq_armorHeader hhdr
    rw [decryptBytes, hc, hwrap _ hlen, if_pos hhdr, harm plain]
    simp [liftPrim, Except.map, hdec plain]

/-- Witness for C2: the toy primitive and an empty filter configuration on a
concrete plaintext, for both armor settings. -/
theorem encrypt_decrypt_roundtrip_witness :
    decryptBytes toyPrim [] id (encryptBytes toyPrim true [] id ("hi".data))
      = Except.ok ("hi".data) ∧
    decryptBytes toyPrim [] id (encryptBytes toyPrim false [] id ("hi".data))
      = Except.ok ("hi".data) := by
  have hbin : ∀ p, toyPrim.decBinary (toyPrim.encBinary p) = Except.ok p := by
    intro p
    simp [toyPrim, List.take_left, List.drop_left]
  have harm : ∀ p, toyPrim.decArmored (toyPrim.armorEnc (toyPrim.encBinary p))
      = Except.ok p := by
    intro p
    simp [toyPrim, List.take_left, List.drop_left]
  have hbinLen : ∀ p, armorHeader.length ≤ (toyPrim.encBinary p).length := by
    intro p
    simp [toyPrim, binMagic]
  have hbinHdr : ∀ p, (toyPrim.encBinary p).take armorHeader.length ≠ armorHeader := by
    intro p
    have hlen : armorHeader.length = binMagic.length := by decide
    show (binMagic ++ p).take armorHeader.length ≠ armorHeader
    rw [hlen, List.take_left]
    decide
  have harmHdr : ∀ c, (toyPrim.armorEnc c).take armorHeader.length = armorHeader := by
    intro c
    show (armorHeader ++ c).take armorHeader.length = armorHeader
    exact List.take_left armorHeader c
  have hfil : ∀ x : Bytes, runFilter [] id x = x := by
    intro x
    simp [runFilter, trimChars]
  have h := encrypt_decrypt_roundtrip toyPrim hbin harm hbinLen hbinHdr harmHdr
    [] [] id id hfil hfil
  exact ⟨h.1 ("hi".data) true, h.1 ("hi".data) false⟩

/-- C5 (amended): for every nonempty input stream shorter than the armor
marker, `wrapDecrypt` fails with the wrapped header-read failure, regardless of
the decryption primitive (so decryption is never consulted), and
`decryptToFile` propagates the same failure. -/
theorem wrapDecrypt_short_nonempty_stream_fails (P : agePrim) (s : Bytes)
    (h0 : 0 < s.length) (h1 : s.length < armorHeader.length) :
    wrapDecrypt P s = Except.error decryptError.headerRead ∧
    (∀ (decodeCmd : Bytes) (decodeFn : Bytes → Bytes),
      decryptBytes P decodeCmd decodeFn s = Except.error decryptError.headerRead) := by
  have hw : wrapDecrypt P s = Except.error decryptError.headerRead := by
    simp [wrapDecrypt, h0, h1]
  exact ⟨hw, fun decodeCmd decodeFn => by simp [decryptBytes, hw, Except.map]⟩

/-- Witness for C5 (amended) on a concrete one-byte stream. -/
theorem wrapDecrypt_short_nonempty_stream_fails_witness :
    wrapDecrypt toyPrim ['x'] = Except.error decryptError.headerRead ∧
    decryptBytes toyPrim [] id ['x'] = Except.error decryptError.headerRead := by
  have h := wrapDecrypt_short_nonempty_stream_fails toyPrim ['x']
    (by decide) (by decide)
  exact ⟨h.1, h.2 [] id⟩

/-- C8: `loadIdentities` ignores blank lines and lines whose first
non-whitespace character is '#', parses every remaining line in declared order
(with recipients derived pairwise), reports a parse failure with the 1-based
position of the failing line among the surviving lines, and fails with the
no-identities error exactly when zero lines survive filtering. -/
theorem loadIdentities_filtering_and_errors {α β : Type}
    (parse : Bytes → Option α) (toRecipient : α → β) (content : Bytes) :
    (filteredLines content = [] →
      loadIdentities parse toRecipient content = .error .noIdentities) ∧
    ((∀ l ∈ filteredLines content, (parse l).isSome = true) →
      filteredLines content ≠ [] →
      loadIdentities parse toRecipient content
        = .ok ((filteredLines content).filterMap parse,
            ((filteredLines content).filterMap parse).map toRecipient)) ∧
    (∀ pre bad rest, filteredLines content = pre ++ bad :: rest →
      (∀ l ∈ pre, (parse l).isSome = true) → parse bad = none →
      loadIdentities parse toRecipient content
        = .error (.parseFailed (pre.length + 1))) ∧
    (loadIdentities parse toRecipient content = .error .noIdentities ↔
      filteredLines content = []) := by
  have hloop := loadIdsLoop_eq_parseFiltered parse toRecipient (splitLines content) 0
  have hF : ((splitLines content).map trimChars).filter keepLine
      = filteredLines content := rfl
  rw [hF] at hloop
  have h1 : filteredLines content = [] →
      loadIdentities parse toRecipient content = .error .noIdentities := by
    intro hempty
    rw [loadIdentities, hloop, hempty]
    rfl
  refine ⟨h1, ?_, ?_, ?_⟩
  · intro hall hne
    rw [loadIdentities, hloop,
      parseFiltered_all_ok parse toRecipient (filteredLines content) 0 hall]
    have hlen : ((filteredLines content).filterMap parse).length
        = (filteredLines content).length :=
      parseFiltered_ok_length parse toRecipient (filteredLines content) 0 _ _
        (parseFiltered_all_ok parse toRecipient (filteredLines content) 0 hall)
    have hne' : ((filteredLines content).filterMap parse).length ≠ 0 := by
      rw [hlen]
      simpa [List.length_eq_zero] using hne
    simp [hne']
  · intro pre bad rest hsplit hpre hbad
    rw [loadIdentities, hloop, hsplit,
      parseFiltered_first_failure parse toRecipient pre bad rest 0 hpre hbad]
    simp
  · constructor
    · intro hres
      by_contra hne
      cases hpf : parseFiltered parse toRecipient 0 (filteredLines content) with
      | error e =>
        rw [loadIdentities, hloop, hpf] at hres
        obtain ⟨k, hk⟩ := parseFiltered_error_shape parse toRecipient
          (filteredLines content) 0 e hpf
        rw [hk] at hres
        cases hres
      | ok p =>
        rw [loadIdentities, hloop, hpf] at hres
        have hlen : p.1.length = (filteredLines content).length :=
          parseFiltered_ok_length parse toRecipient (filteredLines content) 0 p.1 p.2
            (by rw [hpf])
        have : p.1.length ≠ 0 := by
          rw [hlen]
          simpa [List.length_eq_zero] using hne
        simp [this] at hres
    · exact h1

/-- Witness for C8 on concrete identities files: comments and blanks are
skipped, a failing third raw line is reported as surviving line 2, and a file
of only comments and blanks yields the no-identities error. -/
theorem loadIdentities_filtering_and_errors_witness :
    loadIdentities wParse id ("# c\n \nKEY1\nKEY2".data)
      = Except.ok (["KEY1".data, "KEY2".data], ["KEY1".data, "KEY2".data]) ∧
    loadIdentities wParse id ("# c\nKEY1\nbad\nKEY2".data)
      = Except.error (.parseFailed 2) ∧
    loadIdentities wParse id ("# only\n\n".data) = Except.error .noIdentities := by
  refine ⟨?_, ?_, ?_⟩
  · have h := (loadIdentities_filtering_and_errors wParse id
      ("# c\n \nKEY1\nKEY2".data)).2.1 (by decide) (by decide)
    have hv : (filteredLines ("# c\n \nKEY1\nKEY2".data)).filterMap wParse
        = ["KEY1".data, "KEY2".data] := by decide
    rw [h, hv]
    rfl
  · have h := (loadIdentities_filtering_and_errors wParse id
      ("# c\nKEY1\nbad\nKEY2".data)).2.2.1 ["KEY1".data] ("bad".data) ["KEY2".data]
      (by decide) (by decide) (by decide)
    simpa using h
  · exact (loadIdentities_filtering_and_errors wParse id ("# only\n\n".data)).1
      (by decide)

/-! ## Trace helper lemmas for the session model -/

/-- Checkpoint saves only ever add encrypt actions to the trace. -/
theorem runCheckpoints_trace_encrypt_only (hash : Bytes → Bytes)
    (ep : Option Bytes → Except (String × Bytes) Bytes)
    (ts : List (Option Bytes)) (st : saveState) :
    ∀ a ∈ (runCheckpoints hash ep ts st).2, a = action.encryptA := by
  induction ts generalizing st with
  | nil => intro a ha; simp [runCheckpoints] at ha
  | cons t ts2 ih =>
    intro a ha
    simp only [runCheckpoints, List.mem_append] at ha
    rcases ha with h | h
    · by_cases hb : (saveChanges hash ep t st).2.1 = true
      · simpa using (by simpa [hb] using h : a ∈ [action.encryptA])
      · rw [Bool.not_eq_true] at hb
        simp [hb] at h
    · exact ih _ a h

/-- A non-encrypt action does not occur among the checkpoint actions. -/
theorem notMem_runCheckpoints {a : action} (hna : a ≠ action.encryptA)
    (hash : Bytes → Bytes) (ep : Option Bytes → Except (String × Bytes) Bytes)
    (ts : List (Option Bytes)) (st : saveState) :
    a ∉ (runCheckpoints hash ep ts st).2 := by
  intro hmem
  exact hna (runCheckpoints_trace_encrypt_only hash ep ts st a hmem)

/-- The post-decryption phase appends no lock attempts to the trace. -/
theorem editAfterDecrypt_count_tryLock (cfg : config) (e : env)
    (temp : Option Bytes) (tf : Bytes) (tr : List action) (locked : Bool) :
    ((editAfterDecrypt cfg e temp tf tr locked).trace).count action.tryLockA
      = tr.count action.tryLockA := by
  have hcp : ((runCheckpoints e.hash e.encPipe e.checkpointTemps
      ⟨checksumFile e.hash temp, e.encInit⟩).2).count action.tryLockA = 0 :=
    List.count_eq_zero.mpr (notMem_runCheckpoints (by simp) e.hash e.encPipe _ _)
  unfold editAfterDecrypt
  by_cases hro : cfg.readOnly
  · by_cases hch : e.chmodOk = false
    · cases locked <;> simp [hro, hch, unlockTrace, List.count_append]
    · rw [Bool.not_eq_false] at hch
      by_cases hed : e.editorOk = false
      · cases locked <;> simp [hro, hch, hed, unlockTrace, List.count_append]
      · rw [Bool.not_eq_false] at hed
        cases locked <;> simp [hro, hch, hed, unlockTrace, List.count_append]
  · by_cases hed : e.editorOk = false
    · cases locked <;>
        simp [hro, hed, unlockTrace, List.count_append, hcp]
    · rw [Bool.not_eq_false] at hed
      rcases hfs : (saveChanges e.hash e.encPipe e.editorFinalTemp
          (runCheckpoints e.hash e.encPipe e.checkpointTemps
            ⟨checksumFile e.hash temp, e.encInit⟩).1).2.2 with _ | msg <;>
        by_cases hat : (saveChanges e.hash e.encPipe e.editorFinalTemp
          (runCheckpoints e.hash e.encPipe e.checkpointTemps
            ⟨checksumFile e.hash temp, e.encInit⟩).1).2.1 = true <;>
        cases locked <;>
          simp [hro, hed, hfs, hat, unlockTrace, List.count_append, hcp]

/-- Decryption and later phases append no lock attempts to the trace. -/
theorem editAfterLock_count_tryLock (cfg : config) (e : env) (exFlag : Bool)
    (tf : Bytes) (tr : List action) (locked : Bool) :
    ((editAfterLock cfg e exFlag tf tr locked).trace).count action.tryLockA
      = tr.count action.tryLockA := by
  unfold editAfterLock
  by_cases hex : exFlag = true
  · rcases hdec : e.decryptRes with msg | content
    · cases locked <;> simp [hex, hdec, unlockTrace, List.count_append]
    · simp [hex, hdec, editAfterDecrypt_count_tryLock]
  · rw [Bool.not_eq_true] at hex
    simp [hex, editAfterDecrypt_count_tryLock]

/-- The post-decryption phase adds only session actions to the trace: any
action outside the session vocabulary keeps its count from the prefix. -/
theorem editAfterDecrypt_count_nonsession (cfg : config) (e : env)
    (temp : Option Bytes) (tf : Bytes) (tr : List action) (locked : Bool)
    (a : action) (ha : a ∉ sessionVocab) :
    ((editAfterDecrypt cfg e temp tf tr locked).trace).count a
      = tr.count a := by
  simp only [sessionVocab, List.mem_cons, List.not_mem_nil, or_false,
    not_or] at ha
  obtain ⟨h1, h2, h3, h4, h5, h6, h7⟩ := ha
  have hcp : ((runCheckpoints e.hash e.encPipe e.checkpointTemps
      ⟨checksumFile e.hash temp, e.encInit⟩).2).count a = 0 :=
    List.count_eq_zero.mpr (notMem_runCheckpoints h5 e.hash e.encPipe _ _)
  unfold editAfterDecrypt
  by_cases hro : cfg.readOnly
  · by_cases hch : e.chmodOk = false
    · cases locked <;>
        simp [hro, hch, unlockTrace, List.count_append, List.count_cons,
          h2, h7]
    · rw [Bool.not_eq_false] at hch
      by_cases hed : e.editorOk = false
      · cases locked <;>
          simp [hro, hch, hed, unlockTrace, List.count_append,
            List.count_cons, h2, h4, h7]
      · rw [Bool.not_eq_false] at hed
        cases locked <;>
          simp [hro, hch, hed, unlockTrace, List.count_append,
            List.count_cons, h2, h4, h7]
  · by_cases hed : e.editorOk = false
    · cases locked <;>
        simp [hro, hed, unlockTrace, List.count_append, List.count_cons,
          hcp, h3, h4, h6, h7]
    · rw [Bool.not_eq_false] at hed
      rcases hfs : (saveChanges e.hash e.encPipe e.editorFinalTemp
          (runCheckpoints e.hash e.encPipe e.checkpointTemps
            ⟨checksumFile e.hash temp, e.encInit⟩).1).2.2 with _ | msg <;>
        by_cases hat : (saveChanges e.hash e.encPipe e.editorFinalTemp
          (runCheckpoints e.hash e.encPipe e.checkpointTemps
            ⟨checksumFile e.hash temp, e.encInit⟩).1).2.1 = true <;>
        cases locked <;>
          simp [hro, hed, hfs, hat, unlockTrace, List.count_append,
            List.count_cons, hcp, h3, h4, h5, h6, h7]

/-- The decrypt phase and everything after it add only session actions. -/
theorem editAfterLock_count_nonsession (cfg : config) (e : env) (exFlag : Bool)
    (tf : Bytes) (tr : List action) (locked : Bool) (a : action)
    (ha : a ∉ sessionVocab) :
    ((editAfterLock cfg e exFlag tf tr locked).trace).count a
      = tr.count a := by
  have h7 : a ≠ action.unlockA := by
    intro h; exact ha (by simp [sessionVocab, h])
  unfold editAfterLock
  by_cases hex : exFlag = true
  · rcases hdec : e.decryptRes with msg | content
    · cases locked <;>
        simp [hex, hdec, unlockTrace, List.count_append, List.count_cons, h7]
    · simp [hex, hdec, editAfterDecrypt_count_nonsession cfg e (some content)
        tf tr locked a ha]
  · rw [Bool.not_eq_true] at hex
    simp [hex, editAfterDecrypt_count_nonsession cfg e none tf tr locked a ha]

/-- The whole session emits only session actions: any other action has count
zero in every session trace. -/
theorem edit_count_nonsession (cfg : config) (e : env) (a : action)
    (ha : a ∉ sessionVocab) :
    ((edit cfg e).trace).count a = 0 := by
  have h1 : a ≠ action.tryLockA := by
    intro h; exact ha (by simp [sessionVocab, h])
  rcases hca : checkAccess e.access cfg.readOnly with ⟨exFlag, err⟩
  rcases err with _ | msg
  · rcases hid : e.idsResult with ie | ir
    · simp [edit, hca, hid]
    · by_cases hsys : e.sysOk = false
      · simp [edit, hca, hid, hsys]
      · rw [Bool.not_eq_false] at hsys
        by_cases hmk : e.mkdirOk = false
        · simp [edit, hca, hid, hsys, hmk]
        · rw [Bool.not_eq_false] at hmk
          by_cases hgate : (exFlag && cfg.lock && !cfg.readOnly) = true
          · rcases hlk : e.tryLockRes with msg2 | b
            · simp [edit, hca, hid, hsys, hmk, hgate, hlk,
                List.count_cons, h1]
            · rcases b
              · simp [edit, hca, hid, hsys, hmk, hgate, hlk,
                  List.count_cons, h1]
              · have he := editAfterLock_count_nonsession cfg e exFlag
                  (tempFilePath e.tempDir cfg.encPath) [action.tryLockA]
                  true a ha
                simp [edit, hca, hid, hsys, hmk, hgate, hlk, he,
                  List.count_cons, h1]
          · rw [Bool.not_eq_true] at hgate
            have he := editAfterLock_count_nonsession cfg e exFlag
              (tempFilePath e.tempDir cfg.encPath) [] false a ha
            simp [edit, hca, hid, hsys, hmk, hgate, he]
  · simp [edit, hca]

/-- The session itself never removes the workspace on any path: the removal
actions occur in no session trace. -/
theorem edit_no_removal (cfg : config) (e : env) :
    action.removeAllA ∉ (edit cfg e).trace ∧
    action.removeDirA ∉ (edit cfg e).trace :=
  ⟨List.count_eq_zero.mp
      (edit_count_nonsession cfg e action.removeAllA (by decide)),
   List.count_eq_zero.mp
      (edit_count_nonsession cfg e action.removeDirA (by decide))⟩

/-- The session attempts the lock exactly once when the access check reported
the file as existing, identity loading and system facts succeeded, the
workspace was created, locking is enabled and the session is not read-only —
and never otherwise. -/
theorem edit_count_tryLock (cfg : config) (e : env) :
    ((edit cfg e).trace).count action.tryLockA
      = if (checkAccess e.access cfg.readOnly).2 = none ∧
            exceptOk e.idsResult = true ∧ e.sysOk = true ∧ e.mkdirOk = true ∧
            ((checkAccess e.access cfg.readOnly).1 && cfg.lock && !cfg.readOnly)
              = true
        then 1 else 0 := by
  rcases hca : checkAccess e.access cfg.readOnly with ⟨exFlag, err⟩
  rcases err with _ | msg
  · rcases hid : e.idsResult with ie | ir
    · simp [edit, hca, hid, exceptOk]
    · by_cases hsys : e.sysOk = false
      · simp [edit, hca, hid, hsys, exceptOk]
      · rw [Bool.not_eq_false] at hsys
        by_cases hmk : e.mkdirOk = false
        · simp [edit, hca, hid, hsys, hmk, exceptOk]
        · rw [Bool.not_eq_false] at hmk
          by_cases hgate : (exFlag && cfg.lock && !cfg.readOnly) = true
          · rcases hlk : e.tryLockRes with msg2 | b
            · simp [edit, hca, hid, hsys, hmk, hgate, hlk, exceptOk]
            · rcases b
              · simp [edit, hca, hid, hsys, hmk, hgate, hlk, exceptOk]
              · simp [edit, hca, hid, hsys, hmk, hgate, hlk, exceptOk,
                  editAfterLock_count_tryLock]
          · rw [Bool.not_eq_true] at hgate
            simp [edit, hca, hid, hsys, hmk, hgate, exceptOk,
              editAfterLock_count_tryLock]
  · simp [edit, hca]

/-- C6: the advisory lock is attempted only when locking is enabled, the
session is not read-only, and the access check reported the encrypted file as
existing; there is never more than one attempt; and when the single
non-blocking try reports the lock as held elsewhere, the session fails
immediately with the locked error, the trace showing exactly the one attempt. -/
theorem lock_single_nonblocking_attempt :
    (∀ (cfg : config) (e : env), action.tryLockA ∈ (edit cfg e).trace →
      (checkAccess e.access cfg.readOnly).1 = true ∧ cfg.lock = true ∧
        cfg.readOnly = false) ∧
    (∀ (cfg : config) (e : env),
      ((edit cfg e).trace).count action.tryLockA ≤ 1) ∧
    (∀ (cfg : config) (e : env) (ir : List Bytes × List Bytes),
      checkAccess e.access cfg.readOnly = (true, none) →
      e.idsResult = .ok ir → e.sysOk = true → e.mkdirOk = true →
      cfg.lock = true → cfg.readOnly = false → e.tryLockRes = .ok false →
      (edit cfg e).res = .error .lockedE ∧
        (edit cfg e).trace = [action.tryLockA]) := by
  refine ⟨?_, ?_, ?_⟩
  · intro cfg e hmem
    have hpos : 0 < ((edit cfg e).trace).count action.tryLockA :=
      List.count_pos_iff.mpr hmem
    rw [edit_count_tryLock] at hpos
    by_cases hcond : (checkAccess e.access cfg.readOnly).2 = none ∧
        exceptOk e.idsResult = true ∧ e.sysOk = true ∧ e.mkdirOk = true ∧
        ((checkAccess e.access cfg.readOnly).1 && cfg.lock && !cfg.readOnly)
          = true
    · obtain ⟨-, -, -, -, hb⟩ := hcond
      have hb' := hb
      rw [Bool.and_eq_true, Bool.and_eq_true] at hb'
      obtain ⟨⟨h1, h2⟩, h3⟩ := hb'
      exact ⟨h1, h2, by simpa using h3⟩
    · rw [if_neg hcond] at hpos
      omega
  · intro cfg e
    rw [edit_count_tryLock]
    split <;> omega
  · intro cfg e ir hca hid hsys hmk hl hro hlk
    rw [hro] at hca
    constructor <;>
      simp [edit, hca, hid, hsys, hmk, hl, hro, hlk]

/-- Witness for C6: a concrete session whose lock try reports the file as
already locked; the session fails with the locked error after exactly one
attempt, and the attempt conditions hold. -/
theorem lock_single_nonblocking_attempt_witness :
    ((edit wLockCfg wLockEnv).res = Except.error editError.lockedE ∧
      (edit wLockCfg wLockEnv).trace = [action.tryLockA]) ∧
    ((edit wLockCfg wLockEnv).trace).count action.tryLockA ≤ 1 ∧
    ((checkAccess wLockEnv.access wLockCfg.readOnly).1 = true ∧
      wLockCfg.lock = true ∧ wLockCfg.readOnly = false) := by
  refine ⟨?_, lock_single_nonblocking_attempt.2.1 wLockCfg wLockEnv, ?_⟩
  · exact lock_single_nonblocking_attempt.2.2 wLockCfg wLockEnv ([], [])
      (by decide) rfl rfl rfl rfl rfl rfl
  · have h := lock_single_nonblocking_attempt.2.2 wLockCfg wLockEnv ([], [])
      (by decide) rfl rfl rfl rfl rfl rfl
    exact lock_single_nonblocking_attempt.1 wLockCfg wLockEnv
      (by rw [h.2]; exact List.mem_singleton_self _)

/-! ## Read-only sessions (claim C7) -/

/-- In read-only mode, the post-decryption phase leaves the encrypted content
untouched and its trace is the chmod action, possibly followed by the editor
run. -/
theorem editAfterDecrypt_readOnly (cfg : config) (e : env) (temp : Option Bytes)
    (tf : Bytes) (hro : cfg.readOnly = true) :
    (editAfterDecrypt cfg e temp tf [] false).encFinal = e.encInit ∧
    ((editAfterDecrypt cfg e temp tf [] false).trace = [action.chmodReadOnlyA] ∨
      (editAfterDecrypt cfg e temp tf [] false).trace
        = [action.chmodReadOnlyA, action.runEditorA]) := by
  unfold editAfterDecrypt
  by_cases hch : e.chmodOk = false
  · simp [hro, hch, unlockTrace]
  · rw [Bool.not_eq_false] at hch
    by_cases hed : e.editorOk = false
    · simp [hro, hch, hed, unlockTrace]
    · rw [Bool.not_eq_false] at hed
      simp [hro, hch, hed, unlockTrace]

/-- In read-only mode, the whole session leaves the encrypted content untouched
and its trace is empty, the chmod action alone, or chmod followed by the
editor run. -/
theorem edit_readOnly_shape (cfg : config) (e : env) (hro : cfg.readOnly = true) :
    (edit cfg e).encFinal = e.encInit ∧
    ((edit cfg e).trace = [] ∨ (edit cfg e).trace = [action.chmodReadOnlyA] ∨
      (edit cfg e).trace = [action.chmodReadOnlyA, action.runEditorA]) := by
  have hlk : ∀ x : Bool, (x && cfg.lock && !cfg.readOnly) = false := by
    intro x; simp [hro]
  rcases hca : checkAccess e.access cfg.readOnly with ⟨exFlag, err⟩
  rcases err with _ | msg
  · rcases hid : e.idsResult with ie | ir
    · simp [edit, hca, hid]
    · by_cases hsys : e.sysOk = false
      · simp [edit, hca, hid, hsys]
      · rw [Bool.not_eq_false] at hsys
        by_cases hmk : e.mkdirOk = false
        · simp [edit, hca, hid, hsys, hmk]
        · rw [Bool.not_eq_false] at hmk
          have hred : edit cfg e = editAfterLock cfg e exFlag
              (tempFilePath e.tempDir cfg.encPath) [] false := by
            simp [edit, hca, hid, hsys, hmk, hlk]
          rw [hred]
          unfold editAfterLock
          by_cases hex : exFlag = true
          · rcases hdec : e.decryptRes with msg2 | content
            · simp [hex, hdec, unlockTrace]
            · have h := editAfterDecrypt_readOnly cfg e (some content)
                (tempFilePath e.tempDir cfg.encPath) hro
              simp only [hex, if_true, hdec]
              exact ⟨h.1, Or.inr h.2⟩
          · rw [Bool.not_eq_true] at hex
            have h := editAfterDecrypt_readOnly cfg e none
              (tempFilePath e.tempDir cfg.encPath) hro
            simp only [hex, Bool.false_eq_true, if_false]
            exact ⟨h.1, Or.inr h.2⟩
  · simp [edit, hca]

/-- No split of the empty trace isolates a run-editor action. -/
theorem chmod_before_nil (l1 l2 : List action)
    (h : ([] : List action) = l1 ++ action.runEditorA :: l2) :
    action.chmodReadOnlyA ∈ l1 := by
  rcases l1 with _ | ⟨a, l1x⟩ <;> simp at h

/-- No split of the chmod-only trace isolates a run-editor action. -/
theorem chmod_before_chmodOnly (l1 l2 : List action)
    (h : [action.chmodReadOnlyA] = l1 ++ action.runEditorA :: l2) :
    action.chmodReadOnlyA ∈ l1 := by
  rcases l1 with _ | ⟨a, l1x⟩ <;> simp at h

/-- In the chmod-then-editor trace, whatever precedes the editor action
contains the chmod action. -/
theorem chmod_before_pair (l1 l2 : List action)
    (h : [action.chmodReadOnlyA, action.runEditorA]
      = l1 ++ action.runEditorA :: l2) :
    action.chmodReadOnlyA ∈ l1 := by
  rcases l1 with _ | ⟨a, l1x⟩
  · simp at h
  · have ha : action.chmodReadOnlyA = a := by
      have := congrArg List.head? h
      simpa using this
    simp [ha.symm]

/-- C7: read-only sessions never modify the encrypted file's bytes, regardless
of what the editor does to the temp file: the save routine is neither armed nor
invoked, and whenever the editor runs, the temp file was restricted to
owner-read-only beforehand. -/
theorem readOnly_session_never_alters_encrypted_file (cfg : config) (e : env)
    (hro : cfg.readOnly = true) :
    (edit cfg e).encFinal = e.encInit ∧
    action.encryptA ∉ (edit cfg e).trace ∧
    action.armSaveA ∉ (edit cfg e).trace ∧
    (∀ l1 l2, (edit cfg e).trace = l1 ++ action.runEditorA :: l2 →
      action.chmodReadOnlyA ∈ l1) := by
  obtain ⟨henc, htr⟩ := edit_readOnly_shape cfg e hro
  refine ⟨henc, ?_, ?_, ?_⟩
  · rcases htr with h | h | h <;> rw [h] <;> simp
  · rcases htr with h | h | h <;> rw [h] <;> simp
  · intro l1 l2 hsplit
    rcases htr with h | h | h <;> rw [h] at hsplit
    · exact chmod_before_nil l1 l2 hsplit
    · exact chmod_before_chmodOnly l1 l2 hsplit
    · exact chmod_before_pair l1 l2 hsplit

/-- Witness for C7: a concrete read-only session whose editor rewrites the
temp file; the encrypted content is untouched, no save is armed, and the chmod
action precedes the editor run in the concrete trace. -/
theorem readOnly_session_never_alters_encrypted_file_witness :
    (edit wROCfg wROEnv).encFinal = wROEnv.encInit ∧
    action.encryptA ∉ (edit wROCfg wROEnv).trace ∧
    action.armSaveA ∉ (edit wROCfg wROEnv).trace ∧
    action.chmodReadOnlyA ∈ [action.chmodReadOnlyA] := by
  have h := readOnly_session_never_alters_encrypted_file wROCfg wROEnv rfl
  exact ⟨h.1, h.2.1, h.2.2.1,
    h.2.2.2 [action.chmodReadOnlyA] [] (by decide)⟩

/-! ## The save predicate (claims C1 and C4) -/

/-- C1: every save — each checkpoint save and the final save — attempts
re-encryption exactly when the temp file's current digest differs from the
last saved digest: equal digests leave the state (and the encrypted content)
untouched, a successful re-encryption stores the new content and digest, each
checkpoint emits its encrypt action under the same digest test, and the
non-read-only session's final encrypted content is that produced by
`saveChanges` on the editor's final temp content after the checkpoint folds. -/
theorem save_reencrypts_iff_digest_differs :
    (∀ (hash : Bytes → Bytes)
        (encPipe : Option Bytes → Except (String × Bytes) Bytes)
        (temp : Option Bytes) (st : saveState),
      ((saveChanges hash encPipe temp st).2.1 = true ↔
        checksumFile hash temp ≠ st.beforeSum)) ∧
    (∀ (hash : Bytes → Bytes)
        (encPipe : Option Bytes → Except (String × Bytes) Bytes)
        (temp : Option Bytes) (st : saveState),
      checksumFile hash temp = st.beforeSum →
      saveChanges hash encPipe temp st = (st, false, none)) ∧
    (∀ (hash : Bytes → Bytes)
        (encPipe : Option Bytes → Except (String × Bytes) Bytes)
        (temp : Option Bytes) (st : saveState) (c : Bytes),
      encPipe temp = .ok c → checksumFile hash temp ≠ st.beforeSum →
      saveChanges hash encPipe temp st
        = (⟨checksumFile hash temp, c⟩, true, none)) ∧
    (∀ (hash : Bytes → Bytes)
        (encPipe : Option Bytes → Except (String × Bytes) Bytes)
        (t : Option Bytes) (ts : List (Option Bytes)) (st : saveState),
      (runCheckpoints hash encPipe (t :: ts) st).2
        = (if checksumFile hash t = st.beforeSum then [] else [action.encryptA])
          ++ (runCheckpoints hash encPipe ts
                (saveChanges hash encPipe t st).1).2) ∧
    (∀ (cfg : config) (e : env) (temp : Option Bytes) (tf : Bytes)
        (tr : List action) (locked : Bool),
      cfg.readOnly = false → e.editorOk = true →
      (editAfterDecrypt cfg e temp tf tr locked).encFinal
        = (saveChanges e.hash e.encPipe e.editorFinalTemp
            (runCheckpoints e.hash e.encPipe e.checkpointTemps
              ⟨checksumFile e.hash temp, e.encInit⟩).1).1.encContent) := by
  have part1 : ∀ (hash : Bytes → Bytes)
      (encPipe : Option Bytes → Except (String × Bytes) Bytes)
      (temp : Option Bytes) (st : saveState),
      ((saveChanges hash encPipe temp st).2.1 = true ↔
        checksumFile hash temp ≠ st.beforeSum) := by
    intro hash encPipe temp st
    by_cases h : st.beforeSum = checksumFile hash temp
    · simp [saveChanges, h]
    · rcases hep : encPipe temp with ⟨msg, pw⟩ | c <;>
        simp [saveChanges, h, hep, Ne, eq_comm]
  refine ⟨part1, ?_, ?_, ?_, ?_⟩
  · intro hash encPipe temp st h
    simp [saveChanges, h.symm]
  · intro hash encPipe temp st c hep hne
    have h : ¬(st.beforeSum = checksumFile hash temp) := fun hx => hne hx.symm
    simp [saveChanges, h, hep]
  · intro hash encPipe t ts st
    by_cases h : st.beforeSum = checksumFile hash t
    · have hs : (saveChanges hash encPipe t st).2.1 = false := by
        simp [saveChanges, h]
      simp [runCheckpoints, hs, h.symm]
    · have hs : (saveChanges hash encPipe t st).2.1 = true := by
        rcases hep : encPipe t with ⟨msg, pw⟩ | c <;> simp [saveChanges, h, hep]
      have h2 : ¬(checksumFile hash t = st.beforeSum) := fun hx => h hx.symm
      simp [runCheckpoints, hs, h2]
  · intro cfg e temp tf tr locked hro hok
    unfold editAfterDecrypt
    rcases hfs : (saveChanges e.hash e.encPipe e.editorFinalTemp
        (runCheckpoints e.hash e.encPipe e.checkpointTemps
          ⟨checksumFile e.hash temp, e.encInit⟩).1).2.2 with _ | msg <;>
      simp [hro, hok, hfs]

/-- Witness for C1: with an identity digest and a prefixing encryptor, a save
with an unchanged digest leaves everything alone, and one with a changed
digest rewrites content and digest. -/
theorem save_reencrypts_iff_digest_differs_witness :
    saveChanges (fun b => b) (fun t => Except.ok ('E' :: t.getD []))
        (some ['a']) ⟨['a'], ['z']⟩ = (⟨['a'], ['z']⟩, false, none) ∧
    saveChanges (fun b => b) (fun t => Except.ok ('E' :: t.getD []))
        (some ['a']) ⟨['x'], ['z']⟩ = (⟨['a'], ['E', 'a']⟩, true, none) := by
  constructor
  · exact save_reencrypts_iff_digest_differs.2.1 (fun b => b)
      (fun t => Except.ok ('E' :: t.getD [])) (some ['a']) ⟨['a'], ['z']⟩
      (by decide)
  · have h := save_reencrypts_iff_digest_differs.2.2.1 (fun b => b)
      (fun t => Except.ok ('E' :: t.getD [])) (some ['a']) ⟨['x'], ['z']⟩
      ['E', 'a'] rfl (by decide)
    simpa using h

/-- C4 (the code as written): the `config` value carries no force flag and
cannot bypass the digest test — for every configuration of a non-read-only
session whose editor leaves the digest unchanged, the save step performs no
encryption and the encrypted content is untouched. -/
theorem no_config_bypasses_checksum_gate (cfg : config) (e : env)
    (temp : Option Bytes) (tf : Bytes) (tr : List action) (locked : Bool)
    (hro : cfg.readOnly = false) (hcp : e.checkpointTemps = [])
    (hok : e.editorOk = true) (htr : action.encryptA ∉ tr)
    (heq : checksumFile e.hash e.editorFinalTemp = checksumFile e.hash temp) :
    (editAfterDecrypt cfg e temp tf tr locked).encFinal = e.encInit ∧
    action.encryptA ∉ (editAfterDecrypt cfg e temp tf tr locked).trace ∧
    (editAfterDecrypt cfg e temp tf tr locked).res = Except.ok () := by
  have hfs : saveChanges e.hash e.encPipe e.editorFinalTemp
      ⟨checksumFile e.hash temp, e.encInit⟩
      = (⟨checksumFile e.hash temp, e.encInit⟩, false, none) := by
    simp [saveChanges, heq]
  unfold editAfterDecrypt
  cases locked <;>
    simp [hro, hcp, hok, runCheckpoints, hfs, unlockTrace, htr]

/-- Witness for C4: a concrete non-read-only session (with locking and armor
configured arbitrarily) whose editor leaves the digest unchanged performs no
encryption. -/
theorem no_config_bypasses_checksum_gate_witness :
    (editAfterDecrypt wLockCfg wNCEnv (some ("same".data)) [] [] false).encFinal
      = wNCEnv.encInit ∧
    action.encryptA ∉
      (editAfterDecrypt wLockCfg wNCEnv (some ("same".data)) [] [] false).trace ∧
    (editAfterDecrypt wLockCfg wNCEnv (some ("same".data)) [] [] false).res
      = Except.ok () :=
  no_config_bypasses_checksum_gate wLockCfg wNCEnv (some ("same".data)) [] []
    false rfl rfl rfl (by simp) rfl

/-! ## SaveError and deferred cleanup (claim C3) -/

/-- When the final save fails, the post-decryption phase — for any temp
content, any prefix trace, any checkpoint history and any lock state — returns
the saveError carrying the temp file path and the environment's temp dir. -/
theorem editAfterDecrypt_final_save_failure (cfg : config) (e : env)
    (temp : Option Bytes) (tf : Bytes) (tr : List action) (locked : Bool)
    (msg : String) (pw : Bytes)
    (hro : cfg.readOnly = false) (hok : e.editorOk = true)
    (hne : checksumFile e.hash e.editorFinalTemp
      ≠ (runCheckpoints e.hash e.encPipe e.checkpointTemps
          ⟨checksumFile e.hash temp, e.encInit⟩).1.beforeSum)
    (hfail : e.encPipe e.editorFinalTemp = .error (msg, pw)) :
    (editAfterDecrypt cfg e temp tf tr locked).res
      = .error (.saveE ⟨msg, tf⟩) ∧
    (editAfterDecrypt cfg e temp tf tr locked).tempDir = e.tempDir := by
  have hs : (saveChanges e.hash e.encPipe e.editorFinalTemp
      (runCheckpoints e.hash e.encPipe e.checkpointTemps
        ⟨checksumFile e.hash temp, e.encInit⟩).1).2.2 = some msg := by
    have h : ¬((runCheckpoints e.hash e.encPipe e.checkpointTemps
        ⟨checksumFile e.hash temp, e.encInit⟩).1.beforeSum
          = checksumFile e.hash e.editorFinalTemp) := fun hx => hne hx.symm
    simp [saveChanges, h, hfail]
  unfold editAfterDecrypt
  simp [hro, hok, hs]

/-- C3: for every non-read-only session that reaches a failing final save —
whether or not the encrypted file existed, was locked, or checkpoint saves
fired in between — `edit` returns a saveError carrying the plaintext temp
file's path; the session's own trace never contains a workspace removal; and
in the CLI tail the recovery prompt occurs strictly before the deferred
workspace removal. -/
theorem saveError_carries_path_and_defers_removal (cfg : config) (e : env)
    (exFlag : Bool) (ir : List Bytes × List Bytes) (msg : String) (pw : Bytes)
    (hro : cfg.readOnly = false)
    (hca : checkAccess e.access cfg.readOnly = (exFlag, none))
    (hid : e.idsResult = .ok ir)
    (hsys : e.sysOk = true) (hmk : e.mkdirOk = true)
    (hlk : (exFlag && cfg.lock) = true → e.tryLockRes = .ok true)
    (hdec : exFlag = true → exceptOk e.decryptRes = true)
    (hok : e.editorOk = true)
    (hne : checksumFile e.hash e.editorFinalTemp
      ≠ (runCheckpoints e.hash e.encPipe e.checkpointTemps
          ⟨checksumFile e.hash (initialTemp e exFlag), e.encInit⟩).1.beforeSum)
    (hfail : e.encPipe e.editorFinalTemp = .error (msg, pw))
    (htd : e.tempDir ≠ []) :
    (edit cfg e).res
      = .error (.saveE ⟨msg, tempFilePath e.tempDir cfg.encPath⟩) ∧
    action.removeAllA ∉ (edit cfg e).trace ∧
    action.removeDirA ∉ (edit cfg e).trace ∧
    (∃ l1 l2, cliTail (edit cfg e).tempDir (edit cfg e).res
        = l1 ++ action.removeAllA :: l2 ∧ action.promptRecoveryA ∈ l1) := by
  obtain ⟨hra, hrd⟩ := edit_no_removal cfg e
  rw [hro] at hca
  have hkey : (edit cfg e).res
      = .error (.saveE ⟨msg, tempFilePath e.tempDir cfg.encPath⟩) ∧
      (edit cfg e).tempDir = e.tempDir := by
    by_cases hex : exFlag = true
    · rcases hdecr : e.decryptRes with m | d
      · exfalso
        have hd := hdec hex
        rw [hdecr] at hd
        simp [exceptOk] at hd
      · have htemp : initialTemp e exFlag = some d := by
          simp [initialTemp, hex, hdecr]
        rw [htemp] at hne
        by_cases hlock : cfg.lock = true
        · have hlk2 := hlk (by simp [hex, hlock])
          have hred : edit cfg e = editAfterDecrypt cfg e (some d)
              (tempFilePath e.tempDir cfg.encPath) [action.tryLockA] true := by
            simp [edit, hca, hid, hsys, hmk, hro, hex, hlock, hlk2,
              editAfterLock, hdecr]
          rw [hred]
          exact editAfterDecrypt_final_save_failure cfg e (some d)
            (tempFilePath e.tempDir cfg.encPath) [action.tryLockA] true
            msg pw hro hok hne hfail
        · rw [Bool.not_eq_true] at hlock
          have hred : edit cfg e = editAfterDecrypt cfg e (some d)
              (tempFilePath e.tempDir cfg.encPath) [] false := by
            simp [edit, hca, hid, hsys, hmk, hro, hex, hlock,
              editAfterLock, hdecr]
          rw [hred]
          exact editAfterDecrypt_final_save_failure cfg e (some d)
            (tempFilePath e.tempDir cfg.encPath) [] false
            msg pw hro hok hne hfail
    · rw [Bool.not_eq_true] at hex
      have htemp : initialTemp e exFlag = none := by
        simp [initialTemp, hex]
      rw [htemp] at hne
      have hred : edit cfg e = editAfterDecrypt cfg e none
          (tempFilePath e.tempDir cfg.encPath) [] false := by
        simp [edit, hca, hid, hsys, hmk, hro, hex, editAfterLock]
      rw [hred]
      exact editAfterDecrypt_final_save_failure cfg e none
        (tempFilePath e.tempDir cfg.encPath) [] false msg pw hro hok hne hfail
  refine ⟨hkey.1, hra, hrd, ?_⟩
  refine ⟨[action.printErrorA, action.promptRecoveryA, action.waitEnterA],
    [action.removeDirA], ?_, by simp⟩
  rw [hkey.1, hkey.2]
  simp [cliTail, htd]

/-- Witness for C3: a concrete session on an existing, locked encrypted file
with a mid-session checkpoint, whose final encryption fails with a disk error;
the saveError names the temp file, the session removes nothing, and the CLI
prompt precedes both deferred removals. -/
theorem saveError_carries_path_and_defers_removal_witness :
    (edit wLockCfg wSaveFailEnv).res
      = Except.error (editError.saveE
          ⟨"disk full", tempFilePath wSaveFailEnv.tempDir wLockCfg.encPath⟩) ∧
    action.removeAllA ∉ (edit wLockCfg wSaveFailEnv).trace ∧
    action.removeDirA ∉ (edit wLockCfg wSaveFailEnv).trace ∧
    cliTail (edit wLockCfg wSaveFailEnv).tempDir (edit wLockCfg wSaveFailEnv).res
      = [action.printErrorA, action.promptRecoveryA, action.waitEnterA,
         action.removeAllA, action.removeDirA] := by
  have h := saveError_carries_path_and_defers_removal wLockCfg wSaveFailEnv
    true ([], []) "disk full" [] rfl (by decide) rfl rfl rfl
    (fun _ => rfl) (fun _ => rfl) rfl (by decide) rfl (by decide)
  exact ⟨h.1, h.2.1, h.2.2.1, by decide⟩

/-- Counterexample to C5 as stated: the empty stream has fewer bytes than the
armor marker, yet `wrapDecrypt` does not return the header-read failure — it
proceeds to the binary decryption primitive, whose result it returns. -/
theorem wrapDecrypt_empty_stream_counterexample :
    ([] : Bytes).length < armorHeader.length ∧
    wrapDecrypt constOkPrim [] = Except.ok ['x'] ∧
    wrapDecrypt toyPrim [] = Except.error (decryptError.primFailed "bad ciphertext") := by
  refine ⟨by decide, ?_, ?_⟩
  · simp [wrapDecrypt, constOkPrim, liftPrim, armorHeader]
  · simp [wrapDecrypt, toyPrim, liftPrim, armorHeader, binMagic]

end AgeEdit
